import Mathlib

/-!
Shallow embedding of the vox_gui remote-desktop core, translated from the
Rust sources, together with theorems settling the specification claims.

Byte buffers are modelled as lists of naturals; machine-integer overflow
is made explicit with mod where the source can overflow. Cryptographic
primitives (SHA-256, the AES-256-GCM AEAD) are taken as parameters, since
their internals are outside the scope of the claims about this program.
-/

/-- A byte buffer, as in a Rust slice of bytes. -/
abbrev Buf := List Nat

/-! ## Access codes: src/common/auth.rs -/

/-- `AccessCode` from auth.rs: a 6-digit code, its SHA-256 hex digest, and
creation/expiry timestamps (seconds since epoch). -/
structure AccessCode where
  code : String
  hashed : String
  createdAt : Nat
  expiresAt : Nat
deriving DecidableEq, Repr

/-- Validity window of a fresh access code (auth.rs CODE_VALIDITY_SECS). -/
def CODE_VALIDITY_SECS : Nat := 300

/-- `AccessCode::hash_code`: the hex digest of SHA-256 of the code bytes.
SHA-256 itself is a parameter. -/
def AccessCode.hashCode (sha256hex : String → String) (code : String) : String :=
  sha256hex code

/-- `AccessCode::generate` for a given code value and current time. -/
def AccessCode.generate (sha256hex : String → String) (code : String) (now : Nat) :
    AccessCode :=
  { code := code
    hashed := AccessCode.hashCode sha256hex code
    createdAt := now
    expiresAt := now + CODE_VALIDITY_SECS }

/-- `AccessCode::verify`: reject when `now > expires_at`, otherwise compare
the SHA-256 digest of the supplied code with the stored digest. -/
def AccessCode.verify (sha256hex : String → String) (ac : AccessCode)
    (code : String) (now : Nat) : Bool :=
  if now > ac.expiresAt then false
  else AccessCode.hashCode sha256hex code == ac.hashed

/-- `AccessCode::is_expired`. -/
def AccessCode.isExpired (ac : AccessCode) (now : Nat) : Bool :=
  now > ac.expiresAt

/-! ## Crypto channel: src/common/crypto.rs -/

/-- An AEAD scheme (AES-256-GCM in the source): encryption and decryption
keyed functions over key, nonce, payload. Decryption may fail. -/
structure AEAD where
  enc : Buf → Buf → Buf → Buf
  dec : Buf → Buf → Buf → Option Buf

/-- An AEAD is correct when decrypting an encryption under the same key and
nonce returns the plaintext. -/
def AEAD.Correct (A : AEAD) : Prop :=
  ∀ key nonce pt, A.dec key nonce (A.enc key nonce pt) = some pt

/-- `CryptoSession`: holds the 256-bit AEAD key. -/
structure CryptoSession where
  key : Buf
deriving DecidableEq, Repr

/-- `CryptoSession::from_shared_secret`: the key is SHA-256 of the shared
secret. -/
def CryptoSession.fromSharedSecret (sha256 : Buf → Buf) (sharedSecret : Buf) :
    CryptoSession :=
  { key := sha256 sharedSecret }

/-- `CryptoSession::encrypt`: a fresh 12-byte nonce (passed explicitly here,
drawn from the OS RNG in the source) is prepended to the AEAD ciphertext. -/
def CryptoSession.encrypt (A : AEAD) (s : CryptoSession) (nonce : Buf)
    (plaintext : Buf) : Buf :=
  nonce ++ A.enc s.key nonce plaintext

/-- `CryptoSession::decrypt`: records shorter than 12 bytes are invalid;
otherwise split off the 12-byte nonce and AEAD-decrypt the rest. -/
def CryptoSession.decrypt (A : AEAD) (s : CryptoSession) (data : Buf) :
    Option Buf :=
  if data.length < 12 then none
  else A.dec s.key (data.take 12) (data.drop 12)

/-! ## Framed transport: src/common/transport.rs -/

/-- The 4-byte big-endian encoding of a u32 value. -/
def u32be (n : Nat) : Buf :=
  [n / 2 ^ 24 % 256, n / 2 ^ 16 % 256, n / 2 ^ 8 % 256, n % 256]

/-- `send_message`: writes the 4-byte big-endian length (the Rust cast
`data.len() as u32` truncates mod 2^32) followed by the payload. -/
def sendMessage (data : Buf) : Buf :=
  u32be (data.length % 2 ^ 32) ++ data

/-- `receive_message` on a byte stream: read exactly 4 length bytes, decode
big-endian, then read exactly that many payload bytes. Returns the message
and the remaining stream. -/
def receiveMessage (stream : Buf) : Option (Buf × Buf) :=
  match stream with
  | b0 :: b1 :: b2 :: b3 :: rest =>
    let len := b0 * 2 ^ 24 + b1 * 2 ^ 16 + b2 * 2 ^ 8 + b3
    if rest.length < len then none
    else some (rest.take len, rest.drop len)
  | _ => none

/-! ## Claim C2 -/

/-- C2: `AccessCode::verify` returns true iff the SHA-256 digest of the
supplied code equals the stored hash and the current time is at most
`expires_at`; in particular an expired code never verifies. -/
theorem accessCode_verify_iff (sha256hex : String → String) (ac : AccessCode)
    (code : String) (now : Nat) :
    AccessCode.verify sha256hex ac code now = true ↔
      (AccessCode.hashCode sha256hex code = ac.hashed ∧ now ≤ ac.expiresAt) := by
  unfold AccessCode.verify
  split
  · constructor
    · intro h; cases h
    · intro h; omega
  · simp only [beq_iff_eq]
    constructor
    · intro h; exact ⟨h, by omega⟩
    · intro h; exact h.1

/-! ## Claim C3 -/

/-- C3: two `CryptoSession`s derived from the same shared secret round-trip
every plaintext in both directions, and every record produced by `encrypt`
is the 12-byte nonce followed by the AEAD ciphertext. -/
theorem cryptoSession_roundtrip (A : AEAD) (sha256 : Buf → Buf)
    (sharedSecret plaintext nonce : Buf)
    (hA : A.Correct) (hn : nonce.length = 12) :
    (CryptoSession.fromSharedSecret sha256 sharedSecret).decrypt A
        ((CryptoSession.fromSharedSecret sha256 sharedSecret).encrypt A nonce
          plaintext) = some plaintext ∧
    ((CryptoSession.fromSharedSecret sha256 sharedSecret).encrypt A nonce
          plaintext).take 12 = nonce ∧
    ((CryptoSession.fromSharedSecret sha256 sharedSecret).encrypt A nonce
          plaintext).drop 12 =
      A.enc (CryptoSession.fromSharedSecret sha256 sharedSecret).key nonce
        plaintext := by
  set s := CryptoSession.fromSharedSecret sha256 sharedSecret with hs
  have htake : (s.encrypt A nonce plaintext).take 12 = nonce := by
    unfold CryptoSession.encrypt
    rw [← hn]
    exact List.take_left nonce _
  have hdrop : (s.encrypt A nonce plaintext).drop 12 =
      A.enc s.key nonce plaintext := by
    unfold CryptoSession.encrypt
    rw [← hn]
    exact List.drop_left nonce _
  refine ⟨?_, htake, hdrop⟩
  unfold CryptoSession.decrypt
  have hlen : (s.encrypt A nonce plaintext).length =
      12 + (A.enc s.key nonce plaintext).length := by
    unfold CryptoSession.encrypt
    simp [hn]
  rw [htake, hdrop]
  split
  · omega
  · exact hA s.key nonce plaintext

/-- C3 witness: a concrete AEAD instance and nonce satisfying the
hypotheses, with the round-trip evaluated. -/
theorem cryptoSession_roundtrip_witness :
    (CryptoSession.fromSharedSecret id [1, 2, 3]).decrypt
        ⟨fun _ _ pt => pt, fun _ _ ct => some ct⟩
        ((CryptoSession.fromSharedSecret id [1, 2, 3]).encrypt
          ⟨fun _ _ pt => pt, fun _ _ ct => some ct⟩ (List.replicate 12 0)
          [7, 8, 9]) = some [7, 8, 9] :=
  (cryptoSession_roundtrip ⟨fun _ _ pt => pt, fun _ _ ct => some ct⟩ id
    [1, 2, 3] [7, 8, 9] (List.replicate 12 0)
    (fun _ _ _ => rfl) (by decide)).1

/-! ## Claim C7 -/

/-- C7: `send_message` writes exactly the 4-byte big-endian length followed
by the payload; a single `receive_message` on those bytes (with any
remaining stream behind them) returns exactly the payload; two adjacent
framed records parse back in order without confusing their boundaries. -/
theorem framing_roundtrip (data tail d2 : Buf)
    (hlen : data.length < 2 ^ 32) (hlen2 : d2.length < 2 ^ 32) :
    sendMessage data = u32be data.length ++ data ∧
    receiveMessage (sendMessage data ++ tail) = some (data, tail) ∧
    receiveMessage (sendMessage data ++ sendMessage d2) =
      some (data, sendMessage d2) ∧
    receiveMessage (sendMessage d2) = some (d2, []) := by
  have hmod : data.length % 2 ^ 32 = data.length := Nat.mod_eq_of_lt hlen
  have hform : sendMessage data = u32be data.length ++ data := by
    unfold sendMessage
    rw [hmod]
  have hrt : ∀ d t : Buf, d.length < 2 ^ 32 →
      receiveMessage (sendMessage d ++ t) = some (d, t) := by
    intro d t hd
    unfold sendMessage u32be receiveMessage
    rw [Nat.mod_eq_of_lt hd]
    simp only [List.cons_append, List.nil_append]
    have hdec : d.length / 2 ^ 24 % 256 * 2 ^ 24 +
        d.length / 2 ^ 16 % 256 * 2 ^ 16 +
        d.length / 2 ^ 8 % 256 * 2 ^ 8 + d.length % 256 = d.length := by
      omega
    simp only [hdec]
    have hnotlt : ¬ (d ++ t).length < d.length := by
      simp [List.length_append]
    simp only [hnotlt, if_false]
    rw [List.take_left d t, List.drop_left d t]
  refine ⟨hform, hrt data tail hlen, hrt data (sendMessage d2) hlen, ?_⟩
  have h := hrt d2 [] hlen2
  simpa using h

/-- C7 witness: concrete records framed and parsed back. -/
theorem framing_roundtrip_witness :
    receiveMessage (sendMessage [7, 8] ++ sendMessage [5]) =
      some ([7, 8], sendMessage [5]) ∧
    receiveMessage (sendMessage [5]) = some ([5], []) := by
  have h := framing_roundtrip [7, 8] [] [5] (by decide) (by decide)
  exact ⟨h.2.2.1, h.2.2.2⟩

/-! ## Adaptive quality: src/common/quality.rs -/

/-- `QualityMode` from quality.rs. -/
inductive QualityMode where
  | Ultra
  | High
  | Medium
  | Low
  | Minimal
deriving DecidableEq, Repr

/-- `QualityMode::target_fps`. -/
def QualityMode.targetFps : QualityMode → Nat
  | .Ultra => 60
  | .High => 30
  | .Medium => 30
  | .Low => 15
  | .Minimal => 10

/-- One entry of the bandwidth monitor window (timestamps in ms). -/
structure BandwidthSample where
  timestamp : Nat
  bytesSent : Nat
  rtt : Nat
deriving DecidableEq, Repr

/-- `BandwidthMonitor`: rolling window of up to `max_samples` samples. -/
structure BandwidthMonitor where
  samples : List BandwidthSample
  maxSamples : Nat
  lastUpdate : Nat
deriving DecidableEq, Repr

/-- `BandwidthMonitor::new` at a given instant. -/
def BandwidthMonitor.new (now : Nat) : BandwidthMonitor :=
  { samples := [], maxSamples := 30, lastUpdate := now }

/-- `BandwidthMonitor::add_sample`: push the sample, pop the front when the
window exceeds `max_samples`, record the update instant. -/
def BandwidthMonitor.addSample (m : BandwidthMonitor) (now bytesSent rtt : Nat) :
    BandwidthMonitor :=
  let samples1 := m.samples ++ [⟨now, bytesSent, rtt⟩]
  let samples2 := if samples1.length > m.maxSamples then samples1.tail else samples1
  { samples := samples2, maxSamples := m.maxSamples, lastUpdate := now }

/-- `AdaptiveQualityController` state. Instants are naturals (ms). -/
structure AdaptiveQualityController where
  currentQuality : QualityMode
  bandwidthMonitor : BandwidthMonitor
  lastQualityChange : Nat
  qualityChangeCooldown : Nat
  forcedQuality : Option QualityMode
deriving DecidableEq, Repr

/-- `AdaptiveQualityController::new` at a given instant: High quality,
empty monitor, 2-second (2000 ms) cooldown, no forced quality. -/
def AdaptiveQualityController.new (now : Nat) : AdaptiveQualityController :=
  { currentQuality := .High
    bandwidthMonitor := BandwidthMonitor.new now
    lastQualityChange := now
    qualityChangeCooldown := 2000
    forcedQuality := none }

/-- `AdaptiveQualityController::force_quality`: record the forced quality
and, when it is `some q`, make `q` the current quality at once. -/
def AdaptiveQualityController.forceQuality (c : AdaptiveQualityController)
    (quality : Option QualityMode) : AdaptiveQualityController :=
  { c with
    forcedQuality := quality
    currentQuality :=
      match quality with
      | some q => q
      | none => c.currentQuality }

/-- `AdaptiveQualityController::update_metrics`: feed one sample into the
bandwidth monitor. -/
def AdaptiveQualityController.updateMetrics (c : AdaptiveQualityController)
    (now bytesSent rtt : Nat) : AdaptiveQualityController :=
  { c with bandwidthMonitor := c.bandwidthMonitor.addSample now bytesSent rtt }

/-- `AdaptiveQualityController::get_recommended_quality`. The source
computes the recommendation from the monitor with 32-bit float arithmetic
(`calculate_quality`); that scoring function is a parameter here, so the
theorems hold for every possible recommendation it returns. Returns the
recommended mode and the updated controller. -/
def AdaptiveQualityController.getRecommendedQuality
    (calculateQuality : BandwidthMonitor → QualityMode) (now : Nat)
    (c : AdaptiveQualityController) :
    QualityMode × AdaptiveQualityController :=
  match c.forcedQuality with
  | some quality => (quality, c)
  | none =>
    if now - c.lastQualityChange < c.qualityChangeCooldown then
      (c.currentQuality, c)
    else
      let recommended := calculateQuality c.bandwidthMonitor
      if recommended ≠ c.currentQuality then
        (recommended,
          { c with currentQuality := recommended, lastQualityChange := now })
      else (c.currentQuality, c)

/-! ## Claim C8 -/

/-- C8: with no forced quality, the mode never changes within the 2000 ms
cooldown of the last change, and a change stamps the change instant, so two
consecutive automatic changes are at least one cooldown apart; a forced
quality takes effect immediately, bypasses the cooldown at every later
recommendation call, and pins the mode; metric updates never touch the
mode, the change instant, or the pin. -/
theorem quality_cooldown_and_force
    (calcQ : BandwidthMonitor → QualityMode) (c : AdaptiveQualityController)
    (now t0 : Nat) (q : QualityMode)
    (hforced : c.forcedQuality = none) :
    (AdaptiveQualityController.new t0).qualityChangeCooldown = 2000 ∧
    (now - c.lastQualityChange < c.qualityChangeCooldown →
      c.getRecommendedQuality calcQ now = (c.currentQuality, c)) ∧
    (c.lastQualityChange ≤ now →
      (c.getRecommendedQuality calcQ now).2.currentQuality ≠ c.currentQuality →
      c.lastQualityChange + c.qualityChangeCooldown ≤ now ∧
      (c.getRecommendedQuality calcQ now).2.lastQualityChange = now) ∧
    (∀ n1 n2 c2, c.lastQualityChange ≤ n1 → n1 ≤ n2 →
      (c.getRecommendedQuality calcQ n1).2 = c2 →
      c2.currentQuality ≠ c.currentQuality →
      (c2.getRecommendedQuality calcQ n2).2.currentQuality ≠ c2.currentQuality →
      n1 + c.qualityChangeCooldown ≤ n2) ∧
    ((c.forceQuality (some q)).currentQuality = q ∧
      ∀ n, (c.forceQuality (some q)).getRecommendedQuality calcQ n =
        (q, c.forceQuality (some q))) ∧
    (∀ nw b r, (c.updateMetrics nw b r).currentQuality = c.currentQuality ∧
      (c.updateMetrics nw b r).lastQualityChange = c.lastQualityChange ∧
      (c.updateMetrics nw b r).forcedQuality = c.forcedQuality) := by
  have hstep : ∀ (d : AdaptiveQualityController) (n : Nat),
      d.forcedQuality = none → d.lastQualityChange ≤ n →
      (d.getRecommendedQuality calcQ n).2.currentQuality ≠ d.currentQuality →
      d.lastQualityChange + d.qualityChangeCooldown ≤ n ∧
      (d.getRecommendedQuality calcQ n).2.lastQualityChange = n ∧
      (d.getRecommendedQuality calcQ n).2.qualityChangeCooldown =
        d.qualityChangeCooldown ∧
      (d.getRecommendedQuality calcQ n).2.forcedQuality = none := by
    intro d n hf hle hchange
    unfold AdaptiveQualityController.getRecommendedQuality at hchange ⊢
    rw [hf] at hchange ⊢
    simp only at hchange ⊢
    by_cases hcool : n - d.lastQualityChange < d.qualityChangeCooldown
    · rw [if_pos hcool] at hchange
      exact absurd rfl hchange
    · rw [if_neg hcool] at hchange ⊢
      by_cases hrec : calcQ d.bandwidthMonitor ≠ d.currentQuality
      · rw [if_pos hrec] at hchange ⊢
        refine ⟨by omega, rfl, rfl, rfl⟩
      · rw [if_neg hrec] at hchange
        exact absurd rfl hchange
  refine ⟨rfl, ?_, ?_, ?_, ?_, ?_⟩
  · intro hcool
    unfold AdaptiveQualityController.getRecommendedQuality
    rw [hforced]
    simp only [if_pos hcool]
  · intro hle hchange
    have h := hstep c now hforced hle hchange
    exact ⟨h.1, h.2.1⟩
  · intro n1 n2 c2 hle1 hle12 hc2 hch1 hch2
    subst hc2
    have h1 := hstep c n1 hforced hle1 hch1
    have h2 := hstep (c.getRecommendedQuality calcQ n1).2 n2 h1.2.2.2
      (by rw [h1.2.1]; exact hle12) hch2
    have := h2.1
    rw [h1.2.1, h1.2.2.1] at this
    omega
  · refine ⟨rfl, ?_⟩
    intro n
    unfold AdaptiveQualityController.getRecommendedQuality
      AdaptiveQualityController.forceQuality
    rfl
  · intro nw b r
    exact ⟨rfl, rfl, rfl⟩

/-- C8 witness: the theorem applied to the freshly constructed controller,
whose forced quality is none; within the cooldown the mode stays High. -/
theorem quality_cooldown_and_force_witness :
    ((AdaptiveQualityController.new 0).getRecommendedQuality (fun _ => .Low)
      100) = (.High, AdaptiveQualityController.new 0) :=
  (quality_cooldown_and_force (fun _ => .Low)
    (AdaptiveQualityController.new 0) 100 0 .Ultra rfl).2.1 (by decide)

/-! ## Protocol messages and server dispatch: src/common/protocol.rs and
src/server/server.rs -/

/-- `MouseButton` from protocol.rs. -/
inductive MouseButton where
  | Left
  | Right
  | Middle
deriving DecidableEq, Repr

/-- Keyboard `Modifiers` from protocol.rs. -/
structure Modifiers where
  shift : Bool
  ctrl : Bool
  alt : Bool
  meta : Bool
deriving DecidableEq, Repr

/-- The closed protocol `Message` set from protocol.rs. Frame payloads and
metrics are carried opaquely where the dispatch does not inspect them. -/
inductive Message where
  | AuthRequest (code : String)
  | AuthResponse (success : Bool) (sessionToken : Option String)
  | KeyExchange (publicKey : Buf)
  | KeyExchangeAck (publicKey : Buf)
  | ScreenFrame (timestamp width height : Nat) (data : Buf) (compressed : Bool)
  | DeltaFrameMsg (timestamp : Nat)
  | QualityChange (mode : QualityMode)
  | QualityMetricsReport
  | RequestQualityChange (mode : QualityMode)
  | MouseMove (x y : Int)
  | MouseClick (button : MouseButton) (pressed : Bool) (x y : Int)
  | MouseScroll
  | KeyEvent (key : String) (pressed : Bool) (modifiers : Modifiers)
  | StartStream
  | StopStream
  | Ping (timestamp : Nat)
  | Pong (timestamp : Nat)
  | Disconnect
  | FrameAck (timestamp receivedAt : Nat)
  | NetworkStats (bytesSent rttMs : Nat)
deriving DecidableEq, Repr

/-- Per-connection state of `handle_client` in server.rs: whether a crypto
session exists, the registered session id (set by a successful auth), and
the quality controller of the registered session. -/
structure ServerConn where
  hasCrypto : Bool
  sessionId : Option Nat
  controller : AdaptiveQualityController
deriving Repr

/-- Observable effects of one dispatch step of `handle_client`. -/
inductive Effect where
  | sent (m : Message)
  | inputInjected (m : Message)
  | sessionInserted (id : Nat)
deriving DecidableEq, Repr

/-- How the `handle_client` loop proceeds after one message: keep looping,
break out of the loop (orderly close), or return an error (tears the
connection down). -/
inductive LoopResult where
  | continueLoop
  | breakLoop
  | errReturn
deriving DecidableEq, Repr

/-- `handle_auth` (server.rs lines 274-295): succeeds exactly when an
access code is stored and `AccessCode::verify` accepts the supplied code. -/
def handleAuth (sha256hex : String → String) (code : String)
    (accessCode : Option AccessCode) (now : Nat) : Bool :=
  match accessCode with
  | some stored => stored.verify sha256hex code now
  | none => false

/-- One dispatch step of the `match message` block in `handle_client`
(server.rs lines 130-262), translated arm by arm. `sha256hex` models the
hash in `AccessCode::verify`; `now` is the current time; `newId` and
`newToken` stand for the generated UUID and session token; `nowMs` is the
instant used by the quality controller. `handleAuth` above is the
success flag of `handle_auth` (server.rs lines 274-295): true when an
access code is stored and verifies. Errors determined by the message or
the session state are modelled exactly: an AuthRequest before key
exchange returns an error (server.rs line 135), and a KeyExchange whose
public key is not exactly 32 bytes fails the try_from conversion and
returns an error after the ack was already queued (server.rs line 189).
Environmental failures (OS input injection, closed channels) are outside
the dispatch logic and modelled as succeeding. -/
def serverStep (sha256hex : String → String) (accessCode : Option AccessCode)
    (now : Nat) (newId : Nat) (newToken : String) (nowMs : Nat)
    (st : ServerConn) (msg : Message) :
    ServerConn × List Effect × LoopResult :=
  match msg with
  | .AuthRequest code =>
    if st.hasCrypto = false then
      (st, [], .errReturn)
    else
      if handleAuth sha256hex code accessCode now then
        ({ st with sessionId := some newId },
          [.sessionInserted newId,
            .sent (.AuthResponse true (some newToken))], .continueLoop)
      else
        (st, [.sent (.AuthResponse false none)], .continueLoop)
  | .KeyExchange publicKey =>
    if publicKey.length = 32 then
      ({ st with hasCrypto := true },
        [.sent (.KeyExchangeAck [])], .continueLoop)
    else
      (st, [.sent (.KeyExchangeAck [])], .errReturn)
  | .StartStream =>
    match st.sessionId with
    | some _ =>
      (st, [.sent (.QualityChange st.controller.currentQuality)],
        .continueLoop)
    | none => (st, [], .continueLoop)
  | .StopStream => (st, [], .continueLoop)
  | .MouseMove x y => (st, [.inputInjected (.MouseMove x y)], .continueLoop)
  | .MouseClick b p x y =>
    (st, [.inputInjected (.MouseClick b p x y)], .continueLoop)
  | .KeyEvent k p m => (st, [.inputInjected (.KeyEvent k p m)], .continueLoop)
  | .FrameAck ts recvAt =>
    match st.sessionId with
    | some _ =>
      ({ st with
          controller := st.controller.updateMetrics nowMs 0 (recvAt - ts) },
        [], .continueLoop)
    | none => (st, [], .continueLoop)
  | .RequestQualityChange mode =>
    match st.sessionId with
    | some _ =>
      ({ st with controller := st.controller.forceQuality (some mode) },
        [.sent (.QualityChange mode)], .continueLoop)
    | none => (st, [], .continueLoop)
  | .Disconnect => (st, [], .breakLoop)
  | _ => (st, [], .continueLoop)

/-! ## Claims C5 and C6 -/

/-- C5 counterexample: with a crypto session established and a stored
access code, an `AuthRequest` with a wrong code makes the host send
`AuthResponse{success=false, session_token=None}` — but the handler loop
continues in the same state instead of closing, and a second `AuthRequest`
on the same connection is processed again (a retry is accepted), refuting
the claim that the session transitions to Closed with no retries. -/
theorem auth_failure_not_closed_counterexample :
    (serverStep id (some ⟨"314159", "314159", 0, 300⟩) 10 1 "tok" 0
        ⟨true, none, AdaptiveQualityController.new 0⟩
        (.AuthRequest "000000")).2.1 = [.sent (.AuthResponse false none)] ∧
    (serverStep id (some ⟨"314159", "314159", 0, 300⟩) 10 1 "tok" 0
        ⟨true, none, AdaptiveQualityController.new 0⟩
        (.AuthRequest "000000")).2.2 = .continueLoop ∧
    (serverStep id (some ⟨"314159", "314159", 0, 300⟩) 10 1 "tok" 0
        (serverStep id (some ⟨"314159", "314159", 0, 300⟩) 10 1 "tok" 0
          ⟨true, none, AdaptiveQualityController.new 0⟩
          (.AuthRequest "000000")).1
        (.AuthRequest "000000")).2.1 =
      [.sent (.AuthResponse false none)] := by
  refine ⟨?_, ?_, ?_⟩ <;> rfl

/-- C5 amended: on a failed `AuthRequest` after key exchange the host sends
`AuthResponse{success=false, session_token=None}`, but the connection is
not closed: the handler keeps looping in the unchanged state, so further
`AuthRequest`s on the same connection are processed identically. -/
theorem auth_failure_keeps_connection (sha256hex : String → String)
    (accessCode : Option AccessCode) (now newId nowMs : Nat)
    (newToken code : String) (st : ServerConn)
    (hcrypto : st.hasCrypto = true)
    (hfail : handleAuth sha256hex code accessCode now = false) :
    serverStep sha256hex accessCode now newId newToken nowMs st
        (.AuthRequest code) =
      (st, [.sent (.AuthResponse false none)], .continueLoop) := by
  unfold serverStep
  rw [hcrypto]
  simp [hfail]

/-- C5 amended witness: the failed-auth step evaluated at the concrete
counterexample input. -/
theorem auth_failure_keeps_connection_witness :
    serverStep id (some ⟨"314159", "314159", 0, 300⟩) 10 1 "tok" 0
        ⟨true, none, AdaptiveQualityController.new 0⟩
        (.AuthRequest "000000") =
      (⟨true, none, AdaptiveQualityController.new 0⟩,
        [.sent (.AuthResponse false none)], .continueLoop) :=
  auth_failure_keeps_connection id (some ⟨"314159", "314159", 0, 300⟩)
    10 1 0 "tok" "000000" ⟨true, none, AdaptiveQualityController.new 0⟩
    rfl (by decide)

/-- C6 counterexample: in the key-agreed but unauthenticated state, a
`MouseMove` (not permitted by the state table there) is neither rejected
nor does it close the session: the host injects the input (a side effect)
and keeps looping; a `Ping` in the same state is silently ignored. This
refutes the claim that any out-of-state inbound message yields
ProtocolViolation, closes the session, and has no side effects. -/
theorem out_of_state_message_counterexample :
    serverStep id none 0 1 "tok" 0
        ⟨true, none, AdaptiveQualityController.new 0⟩ (.MouseMove 5 5) =
      (⟨true, none, AdaptiveQualityController.new 0⟩,
        [.inputInjected (.MouseMove 5 5)], .continueLoop) ∧
    serverStep id none 0 1 "tok" 0
        ⟨true, none, AdaptiveQualityController.new 0⟩ (.Ping 0) =
      (⟨true, none, AdaptiveQualityController.new 0⟩, [], .continueLoop) := by
  exact ⟨rfl, rfl⟩

/-- C6 amended: the dispatch never produces a protocol-violation error for
an out-of-state message; the only messages that make the handler return an
error are an `AuthRequest` arriving before key exchange and a
`KeyExchange` whose public key is not exactly 32 bytes (the failed
try_from conversion), and the only message that ends the loop is
`Disconnect`. Every other message — whether or not the state table permits
it — leaves the loop running (input events are even processed before
authentication). -/
theorem dispatch_close_characterization (sha256hex : String → String)
    (accessCode : Option AccessCode) (now newId nowMs : Nat)
    (newToken : String) (st : ServerConn) (msg : Message) :
    ((serverStep sha256hex accessCode now newId newToken nowMs st
        msg).2.2 = .errReturn ↔
      ((∃ code, msg = .AuthRequest code) ∧ st.hasCrypto = false) ∨
      (∃ pk, msg = .KeyExchange pk ∧ pk.length ≠ 32)) ∧
    ((serverStep sha256hex accessCode now newId newToken nowMs st
        msg).2.2 = .breakLoop ↔ msg = .Disconnect) := by
  cases msg with
  | AuthRequest code =>
    by_cases hc : st.hasCrypto = false
    · simp [serverStep, hc]
    · by_cases hok : handleAuth sha256hex code accessCode now = true
      · simp [serverStep, hok, hc]
      · simp [serverStep, hok, hc]
  | KeyExchange pk =>
    by_cases hlen : pk.length = 32
    · simp [serverStep, hlen]
    · simp [serverStep, hlen]
  | StartStream => cases hid : st.sessionId <;> simp [serverStep, hid]
  | FrameAck ts recvAt => cases hid : st.sessionId <;> simp [serverStep, hid]
  | RequestQualityChange mode =>
    cases hid : st.sessionId <;> simp [serverStep, hid]
  | _ => simp [serverStep]

/-! ## Frame processor: src/common/frame_processor.rs -/

/-- Tile edge length (frame_processor.rs TILE_SIZE). -/
def TILE_SIZE : Nat := 64

/-- `TileData`: a rectangular changed region and its pixel bytes. -/
structure TileData where
  x : Nat
  y : Nat
  width : Nat
  height : Nat
  data : Buf
deriving DecidableEq, Repr

/-- `FrameType` of a processed frame. -/
inductive FrameType where
  | KeyFrame
  | DeltaFrame
deriving DecidableEq, Repr

/-- `ProcessedFrame` returned by `FrameProcessor::process_frame`. -/
structure ProcessedFrame where
  frameType : FrameType
  data : Buf
  width : Nat
  height : Nat
  tiles : Option (List TileData)
deriving DecidableEq, Repr

/-- `FrameProcessor`: frame dimensions and the stored reference frame
(`last_frame`). The tile-grid dimensions of the Rust struct are the derived
`tileWidth`/`tileHeight` below, exactly as computed in
`FrameProcessor::new`. -/
structure FrameProcessor where
  width : Nat
  height : Nat
  lastFrame : Option Buf
deriving DecidableEq, Repr

/-- Tile-grid width `(width + TILE_SIZE - 1) / TILE_SIZE`. -/
def FrameProcessor.tileWidth (p : FrameProcessor) : Nat :=
  (p.width + TILE_SIZE - 1) / TILE_SIZE

/-- Tile-grid height `(height + TILE_SIZE - 1) / TILE_SIZE`. -/
def FrameProcessor.tileHeight (p : FrameProcessor) : Nat :=
  (p.height + TILE_SIZE - 1) / TILE_SIZE

/-- `FrameProcessor::new`. -/
def FrameProcessor.new (width height : Nat) : FrameProcessor :=
  { width := width, height := height, lastFrame := none }

/-- The bytes of `frame[offset..offset+len]` (shorter at the end). -/
def bytesAt (frame : Buf) (offset len : Nat) : Buf :=
  (frame.drop offset).take len

/-- Splicing `src` into `frame` at `offset`, the effect of Rust
`frame[offset..offset+src.len()].copy_from_slice(&src)`. -/
def writeSlice (frame : Buf) (offset : Nat) (src : Buf) : Buf :=
  frame.take offset ++ src ++ frame.drop (offset + src.length)

/-- The five sample points of `is_tile_changed`: four corners and the
center of a w×h tile (coordinates relative to the tile origin). -/
def samplePoints (w h : Nat) : List (Nat × Nat) :=
  [(0, 0), (w - 1, 0), (0, h - 1), (w - 1, h - 1), (w / 2, h / 2)]

/-- `FrameProcessor::is_tile_changed`: true when some sample point that is
in bounds (and whose pixel lies inside both buffers) has different bytes in
the two frames. -/
def FrameProcessor.isTileChanged (p : FrameProcessor) (prev curr : Buf)
    (x y w h bpp : Nat) : Bool :=
  (samplePoints w h).any fun s =>
    let px := x + s.1
    let py := y + s.2
    if px ≥ p.width ∨ py ≥ p.height then false
    else
      let offset := (py * p.width + px) * bpp
      if offset + bpp ≤ prev.length ∧ offset + bpp ≤ curr.length then
        bytesAt prev offset bpp ≠ bytesAt curr offset bpp
      else false

/-- Row loop of `FrameProcessor::extract_tile`: `rows` rows remain, the
next row is `ty`; the loop breaks once the pixel row leaves the frame and
skips rows whose byte range exceeds the buffer. -/
def FrameProcessor.extractTileRows (p : FrameProcessor) (frame : Buf)
    (x y w bpp : Nat) : Nat → Nat → Buf
  | 0, _ => []
  | rows + 1, ty =>
    let py := y + ty
    if py ≥ p.height then []
    else
      let rowStart := (py * p.width + x) * bpp
      let rowEnd := rowStart + w * bpp
      (if rowEnd ≤ frame.length then bytesAt frame rowStart (w * bpp)
        else []) ++
        p.extractTileRows frame x y w bpp rows (ty + 1)

/-- `FrameProcessor::extract_tile`. -/
def FrameProcessor.extractTile (p : FrameProcessor) (frame : Buf)
    (x y w h bpp : Nat) : Buf :=
  p.extractTileRows frame x y w bpp h 0

/-- Row loop of `FrameProcessor::copy_tile_to_frame`: `rows` rows remain,
the next row is `ty`, `tileOffset` is the running offset into the tile
bytes (advanced even for skipped rows, as in the source); the loop breaks
once the pixel row leaves the frame. -/
def FrameProcessor.copyTileRows (p : FrameProcessor) (tile : TileData) :
    Nat → Nat → Nat → Buf → Buf
  | 0, _, _, frame => frame
  | rows + 1, ty, tileOffset, frame =>
    let py := tile.y + ty
    if py ≥ p.height then frame
    else
      let frameOffset := (py * p.width + tile.x) * 3
      let copyLen := tile.width * 3
      let frame1 :=
        if frameOffset + copyLen ≤ frame.length ∧
            tileOffset + copyLen ≤ tile.data.length then
          writeSlice frame frameOffset (bytesAt tile.data tileOffset copyLen)
        else frame
      p.copyTileRows tile rows (ty + 1) (tileOffset + copyLen) frame1

/-- `FrameProcessor::copy_tile_to_frame` (bpp = 3, RGB). -/
def FrameProcessor.copyTileToFrame (p : FrameProcessor) (frame : Buf)
    (tile : TileData) : Buf :=
  p.copyTileRows tile tile.height 0 0 frame

/-- The tile the grid cell `(tx, ty)` contributes when changed: origin
`(tx*64, ty*64)`, dimensions clipped to the frame, bytes extracted from the
current frame — exactly the `TileData` built in `find_changed_tiles`. -/
def FrameProcessor.tileAt (p : FrameProcessor) (curr : Buf) (tx ty : Nat) :
    TileData :=
  let x := tx * TILE_SIZE
  let y := ty * TILE_SIZE
  let w := min TILE_SIZE (p.width - x)
  let h := min TILE_SIZE (p.height - y)
  { x := x, y := y, width := w, height := h,
    data := p.extractTile curr x y w h 3 }

/-- `FrameProcessor::find_changed_tiles`: scan the tile grid row-major and
collect the changed tiles. -/
def FrameProcessor.findChangedTiles (p : FrameProcessor) (prev curr : Buf) :
    List TileData :=
  (List.range p.tileHeight).foldl
    (fun acc ty =>
      (List.range p.tileWidth).foldl
        (fun acc2 tx =>
          let x := tx * TILE_SIZE
          let y := ty * TILE_SIZE
          let w := min TILE_SIZE (p.width - x)
          let h := min TILE_SIZE (p.height - y)
          if p.isTileChanged prev curr x y w h 3 then
            acc2 ++ [p.tileAt curr tx ty]
          else acc2)
        acc)
    []

/-- `FrameProcessor::process_frame`: first frame or forced keyframe gives a
keyframe and replaces the reference; otherwise the changed tiles are found,
a keyframe is promoted when more than `total_tiles * 6 / 10` tiles changed,
and otherwise a delta frame carrying the changed tiles is returned with the
reference updated by overlaying those tiles. Returns the processed frame
and the updated processor. -/
def FrameProcessor.processFrame (p : FrameProcessor) (frame : Buf)
    (forceKeyframe : Bool) : ProcessedFrame × FrameProcessor :=
  match p.lastFrame, forceKeyframe with
  | none, _ =>
    ({ frameType := .KeyFrame, data := frame, width := p.width,
        height := p.height, tiles := none },
      { p with lastFrame := some frame })
  | some _, true =>
    ({ frameType := .KeyFrame, data := frame, width := p.width,
        height := p.height, tiles := none },
      { p with lastFrame := some frame })
  | some previous, false =>
    let changedTiles := p.findChangedTiles previous frame
    let totalTiles := p.tileWidth * p.tileHeight
    if changedTiles.length > totalTiles * 6 / 10 then
      ({ frameType := .KeyFrame, data := frame, width := p.width,
          height := p.height, tiles := none },
        { p with lastFrame := some frame })
    else
      let newFrame := changedTiles.foldl
        (fun f t => p.copyTileToFrame f t) previous
      ({ frameType := .DeltaFrame, data := [], width := p.width,
          height := p.height, tiles := some changedTiles },
        { p with lastFrame := some newFrame })

/-- `FrameProcessor::apply_delta`: overlay each tile of a delta frame into
the given base framebuffer. -/
def FrameProcessor.applyDelta (p : FrameProcessor) (baseFrame : Buf)
    (delta : ProcessedFrame) : Buf :=
  match delta.tiles with
  | some tiles => tiles.foldl (fun f t => p.copyTileToFrame f t) baseFrame
  | none => baseFrame

/-! ## Claim C4 -/

/-- C4: with an existing reference frame and no forced keyframe, when the
changed tiles exceed 60% of the tile-grid count the result is a KeyFrame
(no tiles) and the reference is replaced by the new frame; otherwise the
result is a DeltaFrame carrying exactly the changed tiles. -/
theorem keyframe_promotion (p : FrameProcessor) (prev frame : Buf)
    (hlast : p.lastFrame = some prev) :
    (6 * (p.tileWidth * p.tileHeight) <
        10 * (p.findChangedTiles prev frame).length →
      (p.processFrame frame false).1.frameType = .KeyFrame ∧
      (p.processFrame frame false).1.tiles = none ∧
      (p.processFrame frame false).2.lastFrame = some frame) ∧
    (¬ 6 * (p.tileWidth * p.tileHeight) <
        10 * (p.findChangedTiles prev frame).length →
      (p.processFrame frame false).1.frameType = .DeltaFrame ∧
      (p.processFrame frame false).1.tiles =
        some (p.findChangedTiles prev frame)) := by
  have hiff : (p.findChangedTiles prev frame).length >
      p.tileWidth * p.tileHeight * 6 / 10 ↔
      6 * (p.tileWidth * p.tileHeight) <
        10 * (p.findChangedTiles prev frame).length := by
    omega
  simp only [FrameProcessor.processFrame, hlast]
  constructor
  · intro h
    rw [if_pos (hiff.mpr h)]
    exact ⟨rfl, rfl, rfl⟩
  · intro h
    rw [if_neg fun hc => h (hiff.mp hc)]
    exact ⟨rfl, rfl⟩

/-- C4 witness: a 1×1 frame (one tile, so any change exceeds 60%) promotes
to a keyframe when its pixel changes, and yields an empty delta when
nothing changes. -/
theorem keyframe_promotion_witness :
    ((FrameProcessor.mk 1 1 (some [0, 0, 0])).processFrame [9, 0, 0]
        false).1.frameType = .KeyFrame ∧
    ((FrameProcessor.mk 1 1 (some [0, 0, 0])).processFrame [0, 0, 0]
        false).1.frameType = .DeltaFrame :=
  ⟨((keyframe_promotion (FrameProcessor.mk 1 1 (some [0, 0, 0])) [0, 0, 0]
      [9, 0, 0] rfl).1 (by decide)).1,
    ((keyframe_promotion (FrameProcessor.mk 1 1 (some [0, 0, 0])) [0, 0, 0]
      [0, 0, 0] rfl).2 (by decide)).1⟩

/-! ## Claim C1 -/

/-- `copy_tile_to_frame` reads the processor only through its dimensions. -/
theorem FrameProcessor.copyTileRows_dims (p q : FrameProcessor)
    (hw : p.width = q.width) (hh : p.height = q.height) (tile : TileData) :
    ∀ rows ty toff frame,
      p.copyTileRows tile rows ty toff frame =
        q.copyTileRows tile rows ty toff frame := by
  intro rows
  induction rows with
  | zero => intro ty toff frame; rfl
  | succ n ih =>
    intro ty toff frame
    simp only [FrameProcessor.copyTileRows]
    rw [hw, hh]
    split
    · rfl
    · exact ih _ _ _

/-- `copyTileToFrame` agrees between processors of equal dimensions. -/
theorem FrameProcessor.copyTileToFrame_dims (p q : FrameProcessor)
    (hw : p.width = q.width) (hh : p.height = q.height) (frame : Buf)
    (tile : TileData) :
    p.copyTileToFrame frame tile = q.copyTileToFrame frame tile :=
  FrameProcessor.copyTileRows_dims p q hw hh tile _ _ _ _

/-- The host run: process a list of captured frames in order with no forced
keyframes, collecting the emitted frames and the final processor state. -/
def processAll (p : FrameProcessor) : List Buf →
    List ProcessedFrame × FrameProcessor
  | [] => ([], p)
  | f :: fs =>
    let r := p.processFrame f false
    let rest := processAll r.2 fs
    (r.1 :: rest.1, rest.2)

/-- The viewer run: starting from a framebuffer, apply each received frame
with `FrameProcessor::apply_delta` in order. -/
def viewerApply (v : FrameProcessor) (fb : Buf) (ds : List ProcessedFrame) :
    Buf :=
  ds.foldl (fun b d => v.applyDelta b d) fb

/-- C1: starting from the keyframe contents F0 (the host reference), a
viewer of the same dimensions that applies every returned DeltaFrame with
`apply_delta` holds exactly the host's stored reference frame after the
same operations, byte for byte, whenever no keyframe interrupts the
sequence. -/
theorem delta_refinement (frames : List Buf) (p v : FrameProcessor)
    (F0 : Buf) (hw : v.width = p.width) (hh : v.height = p.height)
    (hinit : p.lastFrame = some F0)
    (hdelta : ∀ d ∈ (processAll p frames).1, d.frameType = .DeltaFrame) :
    (processAll p frames).2.lastFrame =
      some (viewerApply v F0 (processAll p frames).1) := by
  induction frames generalizing p F0 with
  | nil =>
    simpa [processAll, viewerApply] using hinit
  | cons f fs ih =>
    have hstep : p.processFrame f false =
        (if (p.findChangedTiles F0 f).length >
            p.tileWidth * p.tileHeight * 6 / 10 then
          ({ frameType := .KeyFrame, data := f, width := p.width,
              height := p.height, tiles := none },
            { p with lastFrame := some f })
        else
          ({ frameType := .DeltaFrame, data := [], width := p.width,
              height := p.height,
              tiles := some (p.findChangedTiles F0 f) },
            { p with lastFrame := some ((p.findChangedTiles F0 f).foldl (fun fr t => p.copyTileToFrame fr t) F0) })) := by
      simp only [FrameProcessor.processFrame, hinit]
    have hmem : (p.processFrame f false).1 ∈ (processAll p (f :: fs)).1 := by
      simp [processAll]
    have hdeltaHead := hdelta _ hmem
    by_cases hpromo : (p.findChangedTiles F0 f).length >
        p.tileWidth * p.tileHeight * 6 / 10
    · rw [hstep, if_pos hpromo] at hdeltaHead
      simp at hdeltaHead
    · rw [hstep, if_neg hpromo] at hdeltaHead
      simp only [processAll, hstep, if_neg hpromo]
      have happly : v.applyDelta F0
          { frameType := FrameType.DeltaFrame, data := [], width := p.width,
            height := p.height,
            tiles := some (p.findChangedTiles F0 f) } =
          (p.findChangedTiles F0 f).foldl
            (fun fr t => p.copyTileToFrame fr t) F0 := by
        simp only [FrameProcessor.applyDelta]
        exact List.foldl_ext _ _ _ fun b t _ =>
          FrameProcessor.copyTileToFrame_dims v p hw hh b t
      have ih2 := ih { p with lastFrame := some ((p.findChangedTiles F0 f).foldl (fun fr t => p.copyTileToFrame fr t) F0) }
        ((p.findChangedTiles F0 f).foldl
          (fun fr t => p.copyTileToFrame fr t) F0) hw hh rfl ?_
      · rw [viewerApply] at ih2 ⊢
        simp only [List.foldl_cons, happly]
        exact ih2
      · intro d hd
        apply hdelta
        simp only [processAll, hstep, if_neg hpromo]
        exact List.mem_cons_of_mem _ hd

set_option maxRecDepth 4000 in
/-- C1 witness: a 65×1 frame (two tiles) whose first pixel changes; the
emitted frame is a delta and the viewer reconstruction matches the host
reference. -/
theorem delta_refinement_witness :
    (processAll (FrameProcessor.mk 65 1 (some (List.replicate 195 0)))
        [9 :: List.replicate 194 0]).2.lastFrame =
      some (viewerApply (FrameProcessor.mk 65 1 (some (List.replicate 195 0)))
        (List.replicate 195 0)
        (processAll (FrameProcessor.mk 65 1 (some (List.replicate 195 0)))
          [9 :: List.replicate 194 0]).1) :=
  delta_refinement [9 :: List.replicate 194 0]
    (FrameProcessor.mk 65 1 (some (List.replicate 195 0)))
    (FrameProcessor.mk 65 1 (some (List.replicate 195 0)))
    (List.replicate 195 0) rfl rfl rfl (by decide)

/-! ## Claim C9 -/

/-- Accumulating folds that only append collect an initial segment plus the
flattened per-element contributions. -/
theorem foldl_append_flatMap {α β : Type} (l : List α) (g : α → List β) :
    ∀ init : List β,
      l.foldl (fun acc a => acc ++ g a) init = init ++ l.flatMap g := by
  induction l with
  | nil => intro init; simp
  | cons a l ih =>
    intro init
    simp only [List.foldl_cons, List.flatMap_cons, ih, List.append_assoc]

/-- The tile scan of `find_changed_tiles` as a flat row-major enumeration
of the grid, keeping exactly the cells whose sampled pixels changed. -/
theorem findChangedTiles_eq (p : FrameProcessor) (prev curr : Buf) :
    p.findChangedTiles prev curr =
      (List.range p.tileHeight).flatMap fun ty =>
        (List.range p.tileWidth).flatMap fun tx =>
          if p.isTileChanged prev curr (tx * TILE_SIZE) (ty * TILE_SIZE)
              (min TILE_SIZE (p.width - tx * TILE_SIZE))
              (min TILE_SIZE (p.height - ty * TILE_SIZE)) 3 then
            [p.tileAt curr tx ty]
          else [] := by
  unfold FrameProcessor.findChangedTiles
  have hinner : ∀ (acc : List TileData) (ty : Nat),
      (List.range p.tileWidth).foldl
        (fun acc2 tx =>
          if p.isTileChanged prev curr (tx * TILE_SIZE) (ty * TILE_SIZE)
              (min TILE_SIZE (p.width - tx * TILE_SIZE))
              (min TILE_SIZE (p.height - ty * TILE_SIZE)) 3 then
            acc2 ++ [p.tileAt curr tx ty]
          else acc2)
        acc =
      acc ++ (List.range p.tileWidth).flatMap fun tx =>
        if p.isTileChanged prev curr (tx * TILE_SIZE) (ty * TILE_SIZE)
            (min TILE_SIZE (p.width - tx * TILE_SIZE))
            (min TILE_SIZE (p.height - ty * TILE_SIZE)) 3 then
          [p.tileAt curr tx ty]
        else [] := by
    intro acc ty
    rw [List.foldl_ext
      (g := fun acc2 tx =>
        acc2 ++
          if p.isTileChanged prev curr (tx * TILE_SIZE) (ty * TILE_SIZE)
              (min TILE_SIZE (p.width - tx * TILE_SIZE))
              (min TILE_SIZE (p.height - ty * TILE_SIZE)) 3 then
            [p.tileAt curr tx ty]
          else [])]
    · exact foldl_append_flatMap _ _ acc
    · intro a tx _
      split <;> simp
  rw [List.foldl_ext
    (g := fun acc ty =>
      acc ++ (List.range p.tileWidth).flatMap fun tx =>
        if p.isTileChanged prev curr (tx * TILE_SIZE) (ty * TILE_SIZE)
            (min TILE_SIZE (p.width - tx * TILE_SIZE))
            (min TILE_SIZE (p.height - ty * TILE_SIZE)) 3 then
          [p.tileAt curr tx ty]
        else [])]
  · exact foldl_append_flatMap _ _ []
  · intro acc ty _
    exact hinner acc ty

/-- A grid cell inside the tile grid has positive clipped dimensions and
fits inside the frame. -/
theorem tile_cell_bounds (p : FrameProcessor) (tx ty : Nat)
    (htx : tx < p.tileWidth) (hty : ty < p.tileHeight) :
    1 ≤ min TILE_SIZE (p.width - tx * TILE_SIZE) ∧
    tx * TILE_SIZE + min TILE_SIZE (p.width - tx * TILE_SIZE) ≤ p.width ∧
    1 ≤ min TILE_SIZE (p.height - ty * TILE_SIZE) ∧
    ty * TILE_SIZE + min TILE_SIZE (p.height - ty * TILE_SIZE) ≤ p.height := by
  have h1 : p.tileWidth = (p.width + 64 - 1) / 64 := rfl
  have h2 : p.tileHeight = (p.height + 64 - 1) / 64 := rfl
  have h3 : TILE_SIZE = 64 := rfl
  rw [h1] at htx
  rw [h2] at hty
  rw [h3]
  omega

/-- Every one of the five sample points of a w×h tile lies inside it. -/
theorem samplePoints_lt (w h : Nat) (hw : 1 ≤ w) (hh : 1 ≤ h) :
    ∀ s ∈ samplePoints w h, s.1 < w ∧ s.2 < h := by
  intro s hs
  simp only [samplePoints, List.mem_cons, List.not_mem_nil, or_false] at hs
  rcases hs with rfl | rfl | rfl | rfl | rfl <;> exact ⟨by omega, by omega⟩

/-- For a tile inside a full-sized frame pair, `is_tile_changed` holds
exactly when one of the five sampled pixels has different bytes in the two
frames: the in-bounds guards of the source are always satisfied. -/
theorem isTileChanged_iff (p : FrameProcessor) (prev curr : Buf)
    (x y w h : Nat)
    (hxw : x + w ≤ p.width) (hyh : y + h ≤ p.height)
    (hw : 1 ≤ w) (hh : 1 ≤ h)
    (hprev : prev.length = p.width * p.height * 3)
    (hcurr : curr.length = p.width * p.height * 3) :
    (p.isTileChanged prev curr x y w h 3 = true ↔
      ∃ s ∈ samplePoints w h,
        bytesAt prev (((y + s.2) * p.width + (x + s.1)) * 3) 3 ≠
          bytesAt curr (((y + s.2) * p.width + (x + s.1)) * 3) 3) := by
  have hoff : ∀ s ∈ samplePoints w h,
      ((y + s.2) * p.width + (x + s.1)) * 3 + 3 ≤ p.width * p.height * 3 := by
    intro s hs
    obtain ⟨hs1, hs2⟩ := samplePoints_lt w h hw hh s hs
    have hpx : x + s.1 < p.width := by omega
    have hpy : y + s.2 < p.height := by omega
    have hpix : (y + s.2) * p.width + (x + s.1) + 1 ≤ p.height * p.width := by
      calc (y + s.2) * p.width + (x + s.1) + 1 ≤ (y + s.2) * p.width + p.width := by
            omega
        _ = (y + s.2 + 1) * p.width := by ring
        _ ≤ p.height * p.width := Nat.mul_le_mul_right _ (by omega)
    calc ((y + s.2) * p.width + (x + s.1)) * 3 + 3 =
          ((y + s.2) * p.width + (x + s.1) + 1) * 3 := by ring
      _ ≤ p.height * p.width * 3 := Nat.mul_le_mul_right _ hpix
      _ = p.width * p.height * 3 := by ring
  have hguard : ∀ s ∈ samplePoints w h,
      ¬(x + s.1 ≥ p.width ∨ y + s.2 ≥ p.height) := by
    intro s hs
    obtain ⟨hs1, hs2⟩ := samplePoints_lt w h hw hh s hs
    push_neg
    omega
  simp only [FrameProcessor.isTileChanged, List.any_eq_true]
  constructor
  · rintro ⟨s, hs, hbody⟩
    refine ⟨s, hs, ?_⟩
    rw [if_neg (hguard s hs)] at hbody
    rw [if_pos ⟨by rw [hprev]; exact hoff s hs, by rw [hcurr]; exact hoff s hs⟩]
      at hbody
    exact of_decide_eq_true hbody
  · rintro ⟨s, hs, hdiff⟩
    refine ⟨s, hs, ?_⟩
    rw [if_neg (hguard s hs)]
    rw [if_pos ⟨by rw [hprev]; exact hoff s hs, by rw [hcurr]; exact hoff s hs⟩]
    exact decide_eq_true hdiff

/-- Membership in `find_changed_tiles`: exactly the tiles of in-range grid
cells whose sampling detected a change. -/
theorem mem_findChangedTiles (p : FrameProcessor) (prev curr : Buf)
    (t : TileData) :
    t ∈ p.findChangedTiles prev curr ↔
      ∃ tx ty, tx < p.tileWidth ∧ ty < p.tileHeight ∧
        p.isTileChanged prev curr (tx * TILE_SIZE) (ty * TILE_SIZE)
          (min TILE_SIZE (p.width - tx * TILE_SIZE))
          (min TILE_SIZE (p.height - ty * TILE_SIZE)) 3 = true ∧
        t = p.tileAt curr tx ty := by
  rw [findChangedTiles_eq]
  simp only [List.mem_flatMap, List.mem_range]
  constructor
  · rintro ⟨ty, hty, tx, htx, hmem⟩
    by_cases hch : p.isTileChanged prev curr (tx * TILE_SIZE) (ty * TILE_SIZE)
        (min TILE_SIZE (p.width - tx * TILE_SIZE))
        (min TILE_SIZE (p.height - ty * TILE_SIZE)) 3 = true
    · rw [if_pos hch] at hmem
      simp only [List.mem_singleton] at hmem
      exact ⟨tx, ty, htx, hty, hch, hmem⟩
    · rw [if_neg hch] at hmem
      cases hmem
  · rintro ⟨tx, ty, htx, hty, hch, rfl⟩
    refine ⟨ty, hty, tx, htx, ?_⟩
    rw [if_pos hch]
    exact List.mem_singleton_self _

/-- C9: `find_changed_tiles` scans the 64×64 grid; every returned tile is
the tile of an in-range grid cell, the tile at cell (tx, ty) has origin
(tx·64, ty·64) and dimensions min(64, W − x) × min(64, H − y), and it is
included exactly when one of its five sampled pixels (four corners and the
center) differs byte-wise between the previous and current frame. -/
theorem tile_grid_and_sampling (p : FrameProcessor) (prev curr : Buf)
    (hprev : prev.length = p.width * p.height * 3)
    (hcurr : curr.length = p.width * p.height * 3) :
    (∀ t ∈ p.findChangedTiles prev curr,
      ∃ tx ty, tx < p.tileWidth ∧ ty < p.tileHeight ∧
        t = p.tileAt curr tx ty) ∧
    (∀ tx ty, tx < p.tileWidth → ty < p.tileHeight →
      ((p.tileAt curr tx ty).x = tx * TILE_SIZE ∧
        (p.tileAt curr tx ty).y = ty * TILE_SIZE ∧
        (p.tileAt curr tx ty).width =
          min TILE_SIZE (p.width - tx * TILE_SIZE) ∧
        (p.tileAt curr tx ty).height =
          min TILE_SIZE (p.height - ty * TILE_SIZE)) ∧
      (p.tileAt curr tx ty ∈ p.findChangedTiles prev curr ↔
        ∃ s ∈ samplePoints (min TILE_SIZE (p.width - tx * TILE_SIZE))
            (min TILE_SIZE (p.height - ty * TILE_SIZE)),
          bytesAt prev
              (((ty * TILE_SIZE + s.2) * p.width +
                (tx * TILE_SIZE + s.1)) * 3) 3 ≠
            bytesAt curr
              (((ty * TILE_SIZE + s.2) * p.width +
                (tx * TILE_SIZE + s.1)) * 3) 3)) := by
  constructor
  · intro t ht
    obtain ⟨tx, ty, htx, hty, _, rfl⟩ :=
      (mem_findChangedTiles p prev curr t).mp ht
    exact ⟨tx, ty, htx, hty, rfl⟩
  · intro tx ty htx hty
    obtain ⟨hw1, hxw, hh1, hyh⟩ := tile_cell_bounds p tx ty htx hty
    have hch := isTileChanged_iff p prev curr (tx * TILE_SIZE)
      (ty * TILE_SIZE) (min TILE_SIZE (p.width - tx * TILE_SIZE))
      (min TILE_SIZE (p.height - ty * TILE_SIZE)) hxw hyh hw1 hh1 hprev hcurr
    refine ⟨⟨rfl, rfl, rfl, rfl⟩, ?_⟩
    constructor
    · intro hmem
      obtain ⟨tx2, ty2, htx2, hty2, hch2, heq⟩ :=
        (mem_findChangedTiles p prev curr _).mp hmem
      have hx := congrArg TileData.x heq
      have hy := congrArg TileData.y heq
      simp only [FrameProcessor.tileAt] at hx hy
      have hts : TILE_SIZE = 64 := rfl
      rw [hts] at hx hy
      have htxeq : tx = tx2 := by omega
      have htyeq : ty = ty2 := by omega
      subst htxeq
      subst htyeq
      exact hch.mp hch2
    · intro hdiff
      exact (mem_findChangedTiles p prev curr _).mpr
        ⟨tx, ty, htx, hty, hch.mpr hdiff, rfl⟩

set_option maxRecDepth 4000 in
/-- C9 witness: the 65×1 example; the first tile is detected as changed via
its (0,0) corner sample, and its clipped dimensions are 64×1. -/
theorem tile_grid_and_sampling_witness :
    ((FrameProcessor.mk 65 1 none).tileAt (9 :: List.replicate 194 0) 0
        0).width = 64 ∧
    ((FrameProcessor.mk 65 1 none).tileAt (9 :: List.replicate 194 0) 0
          0) ∈
      (FrameProcessor.mk 65 1 none).findChangedTiles (List.replicate 195 0)
        (9 :: List.replicate 194 0) :=
  ⟨(((tile_grid_and_sampling (FrameProcessor.mk 65 1 none)
        (List.replicate 195 0) (9 :: List.replicate 194 0) (by decide)
        (by decide)).2 0 0 (by decide) (by decide)).1.2.2.1).trans (by decide),
    (((tile_grid_and_sampling (FrameProcessor.mk 65 1 none)
        (List.replicate 195 0) (9 :: List.replicate 194 0) (by decide)
        (by decide)).2 0 0 (by decide) (by decide)).2).mpr
      ⟨(0, 0), by decide, by decide⟩⟩

/-! ## Claim C10 -/

/-- Length of an in-bounds slice. -/
theorem bytesAt_length (frame : Buf) (off len : Nat)
    (h : off + len ≤ frame.length) :
    (bytesAt frame off len).length = len := by
  simp only [bytesAt, List.length_take, List.length_drop]
  omega

/-- Indexing an in-bounds slice reads the underlying buffer. -/
theorem bytesAt_getElem (frame : Buf) (off len j : Nat) :
    (bytesAt frame off len)[j]? =
      if j < len then frame[off + j]? else none := by
  simp only [bytesAt, List.getElem?_take, List.getElem?_drop]

/-- Splicing preserves the buffer length when it stays in bounds. -/
theorem writeSlice_length (frame src : Buf) (off : Nat)
    (h : off + src.length ≤ frame.length) :
    (writeSlice frame off src).length = frame.length := by
  simp only [writeSlice, List.length_append, List.length_take,
    List.length_drop]
  omega

/-- Indexing a spliced buffer: inside the spliced window the source is
read, outside the original buffer is read. -/
theorem writeSlice_getElem (frame src : Buf) (off i : Nat)
    (h : off + src.length ≤ frame.length) :
    (writeSlice frame off src)[i]? =
      if off ≤ i ∧ i < off + src.length then src[i - off]?
      else frame[i]? := by
  unfold writeSlice
  have hlt : (frame.take off).length = off := by
    simp only [List.length_take]
    omega
  rw [List.append_assoc, List.getElem?_append, hlt]
  by_cases h1 : i < off
  · rw [if_pos h1, List.getElem?_take, if_pos h1, if_neg (by omega)]
  · rw [if_neg h1, List.getElem?_append]
    by_cases h2 : i - off < src.length
    · rw [if_pos h2, if_pos ⟨by omega, by omega⟩]
    · rw [if_neg h2, if_neg (by omega), List.getElem?_drop]
      congr 1
      omega

/-- Byte indices of a pixel on one row lie outside the byte range of a row
segment on a different row. -/
theorem pixel_row_ne {W py py0 px x w : Nat} (hpx : px < W) (hne : py ≠ py0)
    (hxw : x + w ≤ W) :
    py * W + px < py0 * W + x ∨ py0 * W + x + w ≤ py * W + px := by
  rcases Nat.lt_or_ge py py0 with hlt | hge
  · left
    calc py * W + px < py * W + W := by omega
      _ = (py + 1) * W := by ring
      _ ≤ py0 * W := Nat.mul_le_mul_right _ (by omega)
      _ ≤ py0 * W + x := by omega
  · right
    have h2 : py0 + 1 ≤ py := by omega
    calc py0 * W + x + w ≤ py0 * W + W := by omega
      _ = (py0 + 1) * W := by ring
      _ ≤ py * W := Nat.mul_le_mul_right _ h2
      _ ≤ py * W + px := by omega

/-- A pixel index is below the frame byte count. -/
theorem pixel_index_lt {W H px py c : Nat} (hpx : px < W) (hpy : py < H)
    (hc : c < 3) : (py * W + px) * 3 + c + 1 ≤ W * H * 3 := by
  have hpix : py * W + px + 1 ≤ H * W := by
    calc py * W + px + 1 ≤ py * W + W := by omega
      _ = (py + 1) * W := by ring
      _ ≤ H * W := Nat.mul_le_mul_right _ (by omega)
  calc (py * W + px) * 3 + c + 1 ≤ (py * W + px) * 3 + 3 := by omega
    _ = (py * W + px + 1) * 3 := by ring
    _ ≤ H * W * 3 := Nat.mul_le_mul_right _ hpix
    _ = W * H * 3 := by ring

/-- Characterization of the row loop of `copy_tile_to_frame` on a
full-sized frame: rows `[ty, ty + rows)` of the tile are written, all other
bytes are untouched, and the length is preserved. The running tile offset
is `ty` rows into the tile bytes. -/
theorem copyTileRows_getElem (p : FrameProcessor) (tile : TileData)
    (hxw : tile.x + tile.width ≤ p.width)
    (hyh : tile.y + tile.height ≤ p.height)
    (hdata : tile.data.length = tile.width * tile.height * 3) :
    ∀ (rows ty : Nat) (frame : Buf),
      ty + rows ≤ tile.height →
      frame.length = p.width * p.height * 3 →
      ((p.copyTileRows tile rows ty (ty * (tile.width * 3)) frame).length =
          frame.length ∧
        ∀ px py c, px < p.width → py < p.height → c < 3 →
          (p.copyTileRows tile rows ty (ty * (tile.width * 3))
              frame)[(py * p.width + px) * 3 + c]? =
            if tile.x ≤ px ∧ px < tile.x + tile.width ∧
                tile.y + ty ≤ py ∧ py < tile.y + ty + rows then
              tile.data[((py - tile.y) * tile.width +
                (px - tile.x)) * 3 + c]?
            else frame[(py * p.width + px) * 3 + c]?) := by
  intro rows
  induction rows with
  | zero =>
    intro ty frame hrows hflen
    refine ⟨rfl, ?_⟩
    intro px py c hpx hpy hc
    rw [if_neg (by omega)]
    rfl
  | succ n ih =>
    intro ty frame hrows hflen
    have hpy0 : tile.y + ty < p.height := by omega
    have hrowfit : ((tile.y + ty) * p.width + tile.x) * 3 +
        tile.width * 3 ≤ frame.length := by
      rw [hflen]
      have hpix : (tile.y + ty) * p.width + tile.x + tile.width ≤
          p.height * p.width := by
        calc (tile.y + ty) * p.width + tile.x + tile.width ≤
              (tile.y + ty) * p.width + p.width := by omega
          _ = (tile.y + ty + 1) * p.width := by ring
          _ ≤ p.height * p.width := Nat.mul_le_mul_right _ (by omega)
      calc ((tile.y + ty) * p.width + tile.x) * 3 + tile.width * 3 =
            ((tile.y + ty) * p.width + tile.x + tile.width) * 3 := by ring
        _ ≤ p.height * p.width * 3 := Nat.mul_le_mul_right _ hpix
        _ = p.width * p.height * 3 := by ring
    have htilefit : ty * (tile.width * 3) + tile.width * 3 ≤
        tile.data.length := by
      rw [hdata]
      calc ty * (tile.width * 3) + tile.width * 3 =
            (ty + 1) * (tile.width * 3) := by ring
        _ ≤ tile.height * (tile.width * 3) :=
            Nat.mul_le_mul_right _ (by omega)
        _ = tile.width * tile.height * 3 := by ring
    have hsrclen : (bytesAt tile.data (ty * (tile.width * 3))
        (tile.width * 3)).length = tile.width * 3 :=
      bytesAt_length _ _ _ htilefit
    have hunfold : p.copyTileRows tile (n + 1) ty (ty * (tile.width * 3))
        frame =
        p.copyTileRows tile n (ty + 1)
          (ty * (tile.width * 3) + tile.width * 3)
          (writeSlice frame (((tile.y + ty) * p.width + tile.x) * 3)
            (bytesAt tile.data (ty * (tile.width * 3))
              (tile.width * 3))) := by
      simp only [FrameProcessor.copyTileRows]
      rw [if_neg (by omega)]
      rw [if_pos ⟨hrowfit, htilefit⟩]
    have hoffarg : ty * (tile.width * 3) + tile.width * 3 =
        (ty + 1) * (tile.width * 3) := by ring
    have hwlen : (writeSlice frame (((tile.y + ty) * p.width + tile.x) * 3)
        (bytesAt tile.data (ty * (tile.width * 3))
          (tile.width * 3))).length = frame.length := by
      apply writeSlice_length
      rw [hsrclen]
      exact hrowfit
    have ihall := ih (ty + 1)
      (writeSlice frame (((tile.y + ty) * p.width + tile.x) * 3)
        (bytesAt tile.data (ty * (tile.width * 3)) (tile.width * 3)))
      (by omega) (by rw [hwlen]; exact hflen)
    constructor
    · rw [hunfold, hoffarg]
      rw [ihall.1]
      exact hwlen
    · intro px py c hpx hpy hc
      rw [hunfold, hoffarg]
      rw [ihall.2 px py c hpx hpy hc]
      have hws := writeSlice_getElem frame
        (bytesAt tile.data (ty * (tile.width * 3)) (tile.width * 3))
        (((tile.y + ty) * p.width + tile.x) * 3)
        ((py * p.width + px) * 3 + c) (by rw [hsrclen]; exact hrowfit)
      rw [hsrclen] at hws
      have hout1 : py ≠ tile.y + ty →
          ¬(((tile.y + ty) * p.width + tile.x) * 3 ≤
              (py * p.width + px) * 3 + c ∧
            (py * p.width + px) * 3 + c <
              ((tile.y + ty) * p.width + tile.x) * 3 + tile.width * 3) := by
        intro hne hcontra
        rcases @pixel_row_ne p.width py (tile.y + ty) px tile.x
            tile.width hpx hne hxw with hlt | hge
        · have h3 : (py * p.width + px + 1) * 3 ≤
              ((tile.y + ty) * p.width + tile.x) * 3 :=
            Nat.mul_le_mul_right _ (by omega)
          omega
        · have h3 : ((tile.y + ty) * p.width + tile.x + tile.width) * 3 ≤
              (py * p.width + px) * 3 :=
            Nat.mul_le_mul_right _ hge
          have h4 : ((tile.y + ty) * p.width + tile.x + tile.width) * 3 =
              ((tile.y + ty) * p.width + tile.x) * 3 + tile.width * 3 := by
            ring
          omega
      have hout2 : ¬(tile.x ≤ px ∧ px < tile.x + tile.width) →
          py = tile.y + ty →
          ¬(((tile.y + ty) * p.width + tile.x) * 3 ≤
              (py * p.width + px) * 3 + c ∧
            (py * p.width + px) * 3 + c <
              ((tile.y + ty) * p.width + tile.x) * 3 + tile.width * 3) := by
        intro hnx hcur hcontra
        subst hcur
        by_cases hord : px < tile.x
        · have h3 : ((tile.y + ty) * p.width + px + 1) * 3 ≤
              ((tile.y + ty) * p.width + tile.x) * 3 :=
            Nat.mul_le_mul_right _ (by omega)
          omega
        · have hge2 : tile.x + tile.width ≤ px := by omega
          have h3 : ((tile.y + ty) * p.width + tile.x + tile.width) * 3 ≤
              ((tile.y + ty) * p.width + px) * 3 :=
            Nat.mul_le_mul_right _ (by omega)
          have h4 : ((tile.y + ty) * p.width + tile.x + tile.width) * 3 =
              ((tile.y + ty) * p.width + tile.x) * 3 + tile.width * 3 := by
            ring
          omega
      by_cases hx : tile.x ≤ px ∧ px < tile.x + tile.width
      · by_cases hy1 : tile.y + (ty + 1) ≤ py ∧ py < tile.y + (ty + 1) + n
        · rw [if_pos (show tile.x ≤ px ∧ px < tile.x + tile.width ∧
              tile.y + (ty + 1) ≤ py ∧ py < tile.y + (ty + 1) + n from
              ⟨hx.1, hx.2, hy1.1, hy1.2⟩)]
          rw [if_pos (show tile.x ≤ px ∧ px < tile.x + tile.width ∧
              tile.y + ty ≤ py ∧ py < tile.y + ty + (n + 1) from
              ⟨hx.1, hx.2, by omega, by omega⟩)]
        · by_cases hcur : py = tile.y + ty
          · rw [if_neg (show ¬(tile.x ≤ px ∧ px < tile.x + tile.width ∧
                tile.y + (ty + 1) ≤ py ∧ py < tile.y + (ty + 1) + n) by
                omega)]
            rw [hws]
            obtain ⟨d, rfl⟩ : ∃ d, px = tile.x + d :=
              ⟨px - tile.x, by omega⟩
            subst hcur
            have hwin : ((tile.y + ty) * p.width + tile.x) * 3 ≤
                ((tile.y + ty) * p.width + (tile.x + d)) * 3 + c ∧
                ((tile.y + ty) * p.width + (tile.x + d)) * 3 + c <
                  ((tile.y + ty) * p.width + tile.x) * 3 +
                    tile.width * 3 := by
              have hd : d < tile.width := by omega
              constructor <;> omega
            rw [if_pos hwin]
            rw [bytesAt_getElem]
            have hj : ((tile.y + ty) * p.width + (tile.x + d)) * 3 + c -
                ((tile.y + ty) * p.width + tile.x) * 3 = d * 3 + c := by
              omega
            rw [hj]
            rw [if_pos (show d * 3 + c < tile.width * 3 by omega)]
            rw [if_pos (show tile.x ≤ tile.x + d ∧
                tile.x + d < tile.x + tile.width ∧
                tile.y + ty ≤ tile.y + ty ∧
                tile.y + ty < tile.y + ty + (n + 1) from
                ⟨by omega, by omega, by omega, by omega⟩)]
            congr 1
            have h1 : tile.y + ty - tile.y = ty := by omega
            have h2 : tile.x + d - tile.x = d := by omega
            rw [h1, h2]
            ring
          · rw [if_neg (show ¬(tile.x ≤ px ∧ px < tile.x + tile.width ∧
                tile.y + (ty + 1) ≤ py ∧ py < tile.y + (ty + 1) + n) by
                omega)]
            rw [hws]
            rw [if_neg (hout1 hcur)]
            rw [if_neg (show ¬(tile.x ≤ px ∧ px < tile.x + tile.width ∧
                tile.y + ty ≤ py ∧ py < tile.y + ty + (n + 1)) by omega)]
      · rw [if_neg (show ¬(tile.x ≤ px ∧ px < tile.x + tile.width ∧
            tile.y + (ty + 1) ≤ py ∧ py < tile.y + (ty + 1) + n) by
            omega)]
        rw [hws]
        by_cases hcur : py = tile.y + ty
        · rw [if_neg (hout2 hx hcur)]
          rw [if_neg (show ¬(tile.x ≤ px ∧ px < tile.x + tile.width ∧
              tile.y + ty ≤ py ∧ py < tile.y + ty + (n + 1)) by omega)]
        · rw [if_neg (hout1 hcur)]
          rw [if_neg (show ¬(tile.x ≤ px ∧ px < tile.x + tile.width ∧
              tile.y + ty ≤ py ∧ py < tile.y + ty + (n + 1)) by omega)]

/-- Characterization of the row loop of `extract_tile` on a full-sized
frame: the extracted bytes are the tile rectangle of the frame, row by
row. -/
theorem extractTileRows_spec (p : FrameProcessor) (frame : Buf) (x y w : Nat)
    (hxw : x + w ≤ p.width)
    (hflen : frame.length = p.width * p.height * 3) :
    ∀ rows ty, y + ty + rows ≤ p.height →
      ((p.extractTileRows frame x y w 3 rows ty).length = rows * (w * 3) ∧
        ∀ r rx c, r < rows → rx < w → c < 3 →
          (p.extractTileRows frame x y w 3 rows ty)[(r * w + rx) * 3 +
              c]? =
            frame[((y + ty + r) * p.width + (x + rx)) * 3 + c]?) := by
  intro rows
  induction rows with
  | zero =>
    intro ty hrows
    exact ⟨by simp [FrameProcessor.extractTileRows], by omega⟩
  | succ n ih =>
    intro ty hrows
    have hpy : y + ty < p.height := by omega
    have hrowfit : ((y + ty) * p.width + x) * 3 + w * 3 ≤ frame.length := by
      rw [hflen]
      have hpix : (y + ty) * p.width + x + w ≤ p.height * p.width := by
        calc (y + ty) * p.width + x + w ≤ (y + ty) * p.width + p.width := by
              omega
          _ = (y + ty + 1) * p.width := by ring
          _ ≤ p.height * p.width := Nat.mul_le_mul_right _ (by omega)
      calc ((y + ty) * p.width + x) * 3 + w * 3 =
            ((y + ty) * p.width + x + w) * 3 := by ring
        _ ≤ p.height * p.width * 3 := Nat.mul_le_mul_right _ hpix
        _ = p.width * p.height * 3 := by ring
    have hrowlen : (bytesAt frame (((y + ty) * p.width + x) * 3)
        (w * 3)).length = w * 3 :=
      bytesAt_length _ _ _ hrowfit
    have hunfold : p.extractTileRows frame x y w 3 (n + 1) ty =
        bytesAt frame (((y + ty) * p.width + x) * 3) (w * 3) ++
          p.extractTileRows frame x y w 3 n (ty + 1) := by
      simp only [FrameProcessor.extractTileRows]
      rw [if_neg (by omega), if_pos hrowfit]
    have ihall := ih (ty + 1) (by omega)
    constructor
    · rw [hunfold, List.length_append, hrowlen, ihall.1]
      ring
    · intro r rx c hr hrx hc
      rw [hunfold, List.getElem?_append, hrowlen]
      rcases r with _ | r2
      · rw [if_pos (by omega)]
        rw [bytesAt_getElem, if_pos (by omega)]
        congr 1
        simp only [Nat.zero_mul, Nat.add_zero]
        omega
      · have hsm : (r2 + 1) * w = r2 * w + w := by ring
        rw [hsm]
        rw [if_neg (by omega)]
        have hidx : (r2 * w + w + rx) * 3 + c - w * 3 =
            (r2 * w + rx) * 3 + c := by omega
        rw [hidx]
        rw [ihall.2 r2 rx c (by omega) hrx hc]
        have hyy : y + (ty + 1) + r2 = y + ty + (r2 + 1) := by omega
        rw [hyy]

/-- A pixel lies in the rectangle of a tile. -/
def inRect (t : TileData) (px py : Nat) : Prop :=
  t.x ≤ px ∧ px < t.x + t.width ∧ t.y ≤ py ∧ py < t.y + t.height

instance (t : TileData) (px py : Nat) : Decidable (inRect t px py) := by
  unfold inRect
  infer_instance

/-- Well-formedness of a tile of `find_changed_tiles`: it fits in the frame
and carries the extraction of the current frame at its rectangle. -/
def TileWf (p : FrameProcessor) (curr : Buf) (t : TileData) : Prop :=
  t.x + t.width ≤ p.width ∧ t.y + t.height ≤ p.height ∧
  t.data = p.extractTile curr t.x t.y t.width t.height 3

/-- Every tile returned by `find_changed_tiles` is well-formed. -/
theorem tileWf_of_mem (p : FrameProcessor) (prev curr : Buf) (t : TileData)
    (ht : t ∈ p.findChangedTiles prev curr) : TileWf p curr t := by
  obtain ⟨tx, ty, htx, hty, _, rfl⟩ :=
    (mem_findChangedTiles p prev curr t).mp ht
  obtain ⟨hw1, hxw, hh1, hyh⟩ := tile_cell_bounds p tx ty htx hty
  exact ⟨hxw, hyh, rfl⟩

/-- `copy_tile_to_frame` with a well-formed tile on a full-sized frame:
inside the tile rectangle the result reads the current frame, outside it
the base frame; the length is preserved. -/
theorem copyTileToFrame_spec (p : FrameProcessor) (curr frame : Buf)
    (t : TileData) (hwf : TileWf p curr t)
    (hclen : curr.length = p.width * p.height * 3)
    (hflen : frame.length = p.width * p.height * 3) :
    ((p.copyTileToFrame frame t).length = frame.length ∧
      ∀ px py c, px < p.width → py < p.height → c < 3 →
        (p.copyTileToFrame frame t)[(py * p.width + px) * 3 + c]? =
          if inRect t px py then curr[(py * p.width + px) * 3 + c]?
          else frame[(py * p.width + px) * 3 + c]?) := by
  obtain ⟨hxw, hyh, hdata⟩ := hwf
  have hext := extractTileRows_spec p curr t.x t.y t.width hxw hclen
    t.height 0 (by omega)
  have hdlen : t.data.length = t.width * t.height * 3 := by
    rw [hdata]
    unfold FrameProcessor.extractTile
    rw [hext.1]
    ring
  have hmain := copyTileRows_getElem p t hxw hyh hdlen t.height 0 frame
    (by omega) hflen
  rw [Nat.zero_mul] at hmain
  constructor
  · exact hmain.1
  · intro px py c hpx hpy hc
    have h2 := hmain.2 px py c hpx hpy hc
    rw [show p.copyTileToFrame frame t =
      p.copyTileRows t t.height 0 0 frame from rfl]
    rw [h2]
    by_cases hin : inRect t px py
    · rw [if_pos (show t.x ≤ px ∧ px < t.x + t.width ∧ t.y + 0 ≤ py ∧
          py < t.y + 0 + t.height from by
          unfold inRect at hin
          exact ⟨hin.1, hin.2.1, by omega, by omega⟩)]
      rw [if_pos hin]
      unfold inRect at hin
      rw [hdata]
      rw [show p.extractTile curr t.x t.y t.width t.height 3 =
        p.extractTileRows curr t.x t.y t.width 3 t.height 0 from rfl]
      rw [hext.2 (py - t.y) (px - t.x) c (by omega) (by omega) hc]
      have e1 : t.y + 0 + (py - t.y) = py := by omega
      have e2 : t.x + (px - t.x) = px := by omega
      rw [e1, e2]
    · rw [if_neg (show ¬(t.x ≤ px ∧ px < t.x + t.width ∧ t.y + 0 ≤ py ∧
          py < t.y + 0 + t.height) from by
          unfold inRect at hin
          intro hcon
          exact hin ⟨hcon.1, hcon.2.1, by omega, by omega⟩)]
      rw [if_neg hin]

/-- Folding `copy_tile_to_frame` over well-formed tiles: a byte inside some
tile's rectangle ends up equal to the current frame, a byte in no tile's
rectangle keeps its base value. -/
theorem foldl_copyTiles_spec (p : FrameProcessor) (curr : Buf)
    (hclen : curr.length = p.width * p.height * 3) :
    ∀ ts : List TileData, (∀ t ∈ ts, TileWf p curr t) →
      ∀ base : Buf, base.length = p.width * p.height * 3 →
        ((ts.foldl (fun f t => p.copyTileToFrame f t) base).length =
            base.length ∧
          ∀ px py c, px < p.width → py < p.height → c < 3 →
            (ts.foldl (fun f t => p.copyTileToFrame f t)
                base)[(py * p.width + px) * 3 + c]? =
              if ∃ t ∈ ts, inRect t px py then
                curr[(py * p.width + px) * 3 + c]?
              else base[(py * p.width + px) * 3 + c]?) := by
  intro ts
  induction ts with
  | nil =>
    intro _ base hbase
    refine ⟨rfl, ?_⟩
    intro px py c hpx hpy hc
    rw [if_neg (by simp)]
    rfl
  | cons t ts ih =>
    intro hwf base hbase
    have hct := copyTileToFrame_spec p curr base t
      (hwf t (List.mem_cons_self t ts)) hclen hbase
    have hbase1 : (p.copyTileToFrame base t).length =
        p.width * p.height * 3 := hct.1.trans hbase
    have ihall := ih (fun t2 ht2 => hwf t2 (List.mem_cons_of_mem t ht2))
      (p.copyTileToFrame base t) hbase1
    constructor
    · rw [List.foldl_cons, ihall.1, hct.1]
    · intro px py c hpx hpy hc
      rw [List.foldl_cons, ihall.2 px py c hpx hpy hc]
      by_cases hex : ∃ t2 ∈ ts, inRect t2 px py
      · rw [if_pos hex]
        rw [if_pos (by
          obtain ⟨t2, ht2, hr⟩ := hex
          exact ⟨t2, List.mem_cons_of_mem t ht2, hr⟩)]
      · rw [if_neg hex, hct.2 px py c hpx hpy hc]
        by_cases hin : inRect t px py
        · rw [if_pos hin, if_pos ⟨t, List.mem_cons_self t ts, hin⟩]
        · rw [if_neg hin]
          rw [if_neg (by
            rintro ⟨t2, ht2, hr⟩
            rcases List.mem_cons.mp ht2 with rfl | ht2
            · exact hin hr
            · exact hex ⟨t2, ht2, hr⟩)]

/-- C10: a `process_frame` call that returns a DeltaFrame updates the
stored reference to the previous reference overlaid with exactly the
returned tiles: every byte whose pixel lies inside some returned tile's
rectangle equals the current frame's byte, and every byte whose pixel lies
in no returned tile's rectangle keeps its previous reference value. -/
theorem delta_reference_update (p : FrameProcessor) (prev frame : Buf)
    (hlast : p.lastFrame = some prev)
    (hprev : prev.length = p.width * p.height * 3)
    (hframe : frame.length = p.width * p.height * 3)
    (hdelta : (p.processFrame frame false).1.frameType = .DeltaFrame) :
    (p.processFrame frame false).2.lastFrame =
      some ((p.findChangedTiles prev frame).foldl
        (fun f t => p.copyTileToFrame f t) prev) ∧
    ∀ px py c, px < p.width → py < p.height → c < 3 →
      ((∃ t ∈ p.findChangedTiles prev frame, inRect t px py) →
        ((p.findChangedTiles prev frame).foldl
            (fun f t => p.copyTileToFrame f t)
            prev)[(py * p.width + px) * 3 + c]? =
          frame[(py * p.width + px) * 3 + c]?) ∧
      ((∀ t ∈ p.findChangedTiles prev frame, ¬inRect t px py) →
        ((p.findChangedTiles prev frame).foldl
            (fun f t => p.copyTileToFrame f t)
            prev)[(py * p.width + px) * 3 + c]? =
          prev[(py * p.width + px) * 3 + c]?) := by
  have hpromo : ¬(p.findChangedTiles prev frame).length >
      p.tileWidth * p.tileHeight * 6 / 10 := by
    intro hgt
    rw [show p.processFrame frame false =
        ({ frameType := .KeyFrame, data := frame, width := p.width,
            height := p.height, tiles := none },
          { p with lastFrame := some frame }) from by
      simp only [FrameProcessor.processFrame, hlast]
      rw [if_pos hgt]] at hdelta
    cases hdelta
  have hfold := foldl_copyTiles_spec p frame hframe
    (p.findChangedTiles prev frame)
    (fun t ht => tileWf_of_mem p prev frame t ht) prev hprev
  constructor
  · simp only [FrameProcessor.processFrame, hlast]
    rw [if_neg hpromo]
  · intro px py c hpx hpy hc
    constructor
    · intro hex
      rw [hfold.2 px py c hpx hpy hc, if_pos hex]
    · intro hnone
      rw [hfold.2 px py c hpx hpy hc]
      rw [if_neg (by
        rintro ⟨t, ht, hr⟩
        exact hnone t ht hr)]

set_option maxRecDepth 8000 in
/-- C10 witness: the 65×1 example; after the delta the reference byte at
the changed pixel (0,0) equals the current frame (9) and the byte at pixel
(64,0), inside no returned tile, keeps its previous value (0). -/
theorem delta_reference_update_witness :
    (((FrameProcessor.mk 65 1
          (some (List.replicate 195 0))).findChangedTiles
          (List.replicate 195 0) (9 :: List.replicate 194 0)).foldl
        (fun f t =>
          (FrameProcessor.mk 65 1
            (some (List.replicate 195 0))).copyTileToFrame f t)
        (List.replicate 195 0))[(0 : Nat)]? = some 9 ∧
    (((FrameProcessor.mk 65 1
          (some (List.replicate 195 0))).findChangedTiles
          (List.replicate 195 0) (9 :: List.replicate 194 0)).foldl
        (fun f t =>
          (FrameProcessor.mk 65 1
            (some (List.replicate 195 0))).copyTileToFrame f t)
        (List.replicate 195 0))[(192 : Nat)]? = some 0 := by
  have h := delta_reference_update
    (FrameProcessor.mk 65 1 (some (List.replicate 195 0)))
    (List.replicate 195 0) (9 :: List.replicate 194 0) rfl (by decide)
    (by decide) (by decide)
  constructor
  · have h1 := (h.2 0 0 0 (by decide) (by decide) (by decide)).1 (by decide)
    exact h1.trans (by decide)
  · have h2 := (h.2 64 0 0 (by decide) (by decide) (by decide)).2 (by decide)
    exact h2.trans (by decide)
